import Mathlib

/-!
Verification of the lintai UI backend core (lintai/ui/server.py).

The Python source is shallowly embedded: the run registry is a list of
run records threaded explicitly, the helpers `_add_run`, `_set_status`,
`_save_runs`/`_runs`, `_safe`, the findings filter, the location rewrite
of `results`, and the `subgraph` BFS loop are translated into executable
Lean definitions, and the stated properties are settled against them.
-/

/-- Run type, mirroring the `RunType` str-enum of the source. -/
inductive RunType where
  | scan
  | inventory
deriving DecidableEq

/-- Run status, mirroring the literal strings pending / done / error. -/
inductive RunStatus where
  | pending
  | done
  | error
deriving DecidableEq

/-- A UTC datetime as produced by `datetime.now(timezone.utc)`: the
fields carried by a Python datetime that matter for serialisation.
The timezone is always UTC in the source, so it is not a field. -/
structure PyDateTime where
  year : Nat
  month : Nat
  day : Nat
  hour : Nat
  minute : Nat
  second : Nat
  microsecond : Nat
deriving DecidableEq

/-- The `RunSummary` pydantic model: one run record of the registry. -/
structure RunSummary where
  run_id : String
  type : RunType
  created : PyDateTime
  status : RunStatus
  path : String
deriving DecidableEq

/-- `_add_run(r)`: loads the registry list, appends `r`, saves.  As a
function on the registry list it is an unconditional append; the source
performs no duplicate-id check and has no failure path. -/
def add_run (lst : List RunSummary) (r : RunSummary) : List RunSummary :=
  lst ++ [r]

/-- `_set_status(rid, st)`: walks the registry list and sets the status
of the first record whose `run_id` equals `rid` (the loop breaks at the
first match); every other record is untouched.  The source performs no
check that the record is still pending. -/
def set_status (lst : List RunSummary) (rid : String) (st : RunStatus) :
    List RunSummary :=
  match lst with
  | [] => []
  | r :: rest =>
    if r.run_id = rid then { r with status := st } :: rest
    else r :: set_status rest rid st

/-- A concrete run record already in terminal status `done`. -/
def rDone : RunSummary :=
  { run_id := "r1"
    type := RunType.scan
    created := ⟨2025, 1, 1, 0, 0, 0, 0⟩
    status := RunStatus.done
    path := "." }

/-- A concrete pending run record with a distinct id. -/
def rPend : RunSummary :=
  { run_id := "r2"
    type := RunType.inventory
    created := ⟨2025, 1, 2, 3, 4, 5, 6⟩
    status := RunStatus.pending
    path := "." }

/-- C1 counterexample: the claim says a run whose status is terminal
(`done`) is never changed by a subsequent `setStatus` call, but
`_set_status` overwrites unconditionally: calling it with `error` on a
registry holding a `done` record flips that record to `error`. -/
theorem c1_counterexample :
    set_status [rDone] "r1" RunStatus.error
        = [{ rDone with status := RunStatus.error }] ∧
    rDone.status = RunStatus.done ∧
    RunStatus.error ≠ RunStatus.done := by
  refine ⟨?_, rfl, by decide⟩
  simp [set_status, rDone]

/-- C1 amended: `_set_status` is last-write-wins.  A subsequent
`set_status` call on the same run id overwrites whatever status the
record had, terminal or not: composing two calls on the same id equals
the later call alone.  The once-terminal-always-terminal invariant is
not enforced by `_set_status` itself; it only holds because the
dispatcher issues at most one status update per run. -/
theorem c1_amended_set_status_last_write_wins
    (lst : List RunSummary) (rid : String) (st1 st2 : RunStatus) :
    set_status (set_status lst rid st1) rid st2 = set_status lst rid st2 := by
  induction lst with
  | nil => rfl
  | cons r rest ih =>
    by_cases h : r.run_id = rid
    · simp [set_status, h]
    · simp [set_status, h, ih]

/-- C2 counterexample: the claim says `create` fails when the id already
exists, but `_add_run` appends unconditionally: adding the same record
twice yields a registry with a duplicated run id and no failure. -/
theorem c2_counterexample :
    add_run (add_run [] rDone) rDone = [rDone, rDone] ∧
    ¬ ((add_run (add_run [] rDone) rDone).map RunSummary.run_id).Nodup := by
  constructor
  · rfl
  · decide

/-- C2 amended: `_add_run` never fails and performs no duplicate check;
it is a plain append.  Uniqueness of run ids is preserved only when the
caller supplies a fresh id (the endpoints always generate a fresh
uuid4), in which case appending keeps the id list duplicate-free. -/
theorem c2_amended_add_run_appends_fresh_id_keeps_nodup
    (lst : List RunSummary) (r : RunSummary)
    (h1 : (lst.map RunSummary.run_id).Nodup)
    (h2 : r.run_id ∉ lst.map RunSummary.run_id) :
    add_run lst r = lst ++ [r] ∧
    ((add_run lst r).map RunSummary.run_id).Nodup := by
  refine ⟨rfl, ?_⟩
  simp only [add_run, List.map_append, List.map_cons, List.map_nil]
  refine List.Nodup.append h1 (List.nodup_singleton _) ?_
  intro a ha hb
  simp only [List.mem_singleton] at hb
  subst hb
  exact h2 ha

/-- C2 amended witness at a concrete registry and fresh record. -/
theorem c2_amended_witness :
    ([rDone].map RunSummary.run_id).Nodup ∧
    rPend.run_id ∉ [rDone].map RunSummary.run_id ∧
    (add_run [rDone] rPend = [rDone] ++ [rPend] ∧
      ((add_run [rDone] rPend).map RunSummary.run_id).Nodup) :=
  ⟨by decide, by decide,
    c2_amended_add_run_appends_fresh_id_keeps_nodup [rDone] rPend
      (by decide) (by decide)⟩

/-- One finding record inside a scan report.  The three fields the
filter consults are optional, mirroring the `f.get(...)` dictionary
accesses of the source. -/
structure Finding where
  severity : Option String
  owasp_id : Option String
  location : Option String
deriving DecidableEq

/-- Python substring containment `needle in hay` on strings. -/
def strContains (needle hay : String) : Bool :=
  decide (needle.data <:+: hay.data)

/-- The findings-filtering body of `filter_scan`: each criterion is
applied only when it is truthy in Python (present and non-empty), with
`severity` an exact equality against `f.get("severity")`, and
`owasp_id` / `component` substring containment against
`f.get("owasp_id", "")` / `f.get("location", "")`. -/
def filter_findings (findings : List Finding)
    (severity owasp_id component : Option String) : List Finding :=
  let fs1 :=
    match severity with
    | some s => if s = "" then findings
        else findings.filter (fun f => f.severity == some s)
    | none => findings
  let fs2 :=
    match owasp_id with
    | some s => if s = "" then fs1
        else fs1.filter (fun f => strContains s (f.owasp_id.getD ""))
    | none => fs1
  let fs3 :=
    match component with
    | some s => if s = "" then fs2
        else fs2.filter (fun f => strContains s (f.location.getD ""))
    | none => fs2
  fs3

/-- The predicate stated by the specification: the conjunction of the
provided criteria, severity by exact equality, owasp id and component
by substring containment. -/
def matchesCriteria (severity owasp_id component : Option String)
    (f : Finding) : Bool :=
  (match severity with
   | none => true
   | some s => f.severity == some s) &&
  (match owasp_id with
   | none => true
   | some s => strContains s (f.owasp_id.getD "")) &&
  (match component with
   | none => true
   | some s => strContains s (f.location.getD ""))

/-- A concrete finding with severity high. -/
def fHigh : Finding :=
  { severity := some "high", owasp_id := some "LLM01", location := some "src/app.py" }

/-- C4 counterexample: with the criterion severity provided as the
empty string, the filter returns the finding with severity high even
though that finding does not satisfy the provided exact-equality
criterion, so the output is not the set of findings satisfying the
conjunction of the provided criteria. -/
theorem c4_counterexample :
    filter_findings [fHigh] (some "") none none = [fHigh] ∧
    [fHigh].filter (matchesCriteria (some "") none none) = [] := by
  constructor
  · rfl
  · decide

/-- C4 amended: for every combination of the three optional criteria in
which each provided criterion is a non-empty string, the filter returns
exactly the findings satisfying the conjunction of the provided
criteria (severity by exact equality, owasp id and component by
substring containment), and with no criteria provided it is the
identity.  A criterion provided as the empty string is instead treated
as absent (Python truthiness), which is what the counterexample forces
the claim to exclude. -/
theorem c4_amended_filter_conjunction (findings : List Finding)
    (severity owasp_id component : Option String)
    (hs : severity ≠ some "") (ho : owasp_id ≠ some "")
    (hc : component ≠ some "") :
    filter_findings findings severity owasp_id component
        = findings.filter (matchesCriteria severity owasp_id component) ∧
    filter_findings findings none none none = findings := by
  constructor
  · have hfe : ∀ (l : List Finding) (p q : Finding → Bool), (∀ f, p f = q f) →
        l.filter p = l.filter q :=
      fun l p q h => List.filter_congr fun a _ => h a
    cases severity with
    | none =>
      cases owasp_id with
      | none =>
        cases component with
        | none =>
          rw [hfe findings (matchesCriteria none none none) (fun _ => true)
            (fun f => by simp [matchesCriteria])]
          simp [filter_findings]
        | some c =>
          have hc' : c ≠ "" := fun h => hc (by rw [h])
          simp [filter_findings, hc']
          exact hfe _ _ _ fun f => by
            simp [matchesCriteria, Bool.and_comm, Bool.and_assoc, Bool.and_left_comm]
      | some o =>
        have ho' : o ≠ "" := fun h => ho (by rw [h])
        cases component with
        | none =>
          simp [filter_findings, ho']
          exact hfe _ _ _ fun f => by
            simp [matchesCriteria, Bool.and_comm, Bool.and_assoc, Bool.and_left_comm]
        | some c =>
          have hc' : c ≠ "" := fun h => hc (by rw [h])
          simp [filter_findings, ho', hc', List.filter_filter]
          exact hfe _ _ _ fun f => by
            simp [matchesCriteria, Bool.and_comm, Bool.and_assoc, Bool.and_left_comm]
    | some s =>
      have hs' : s ≠ "" := fun h => hs (by rw [h])
      cases owasp_id with
      | none =>
        cases component with
        | none =>
          simp [filter_findings, hs']
          exact hfe _ _ _ fun f => by
            simp [matchesCriteria, Bool.and_comm, Bool.and_assoc, Bool.and_left_comm]
        | some c =>
          have hc' : c ≠ "" := fun h => hc (by rw [h])
          simp [filter_findings, hs', hc', List.filter_filter]
          exact hfe _ _ _ fun f => by
            simp [matchesCriteria, Bool.and_comm, Bool.and_assoc, Bool.and_left_comm]
      | some o =>
        have ho' : o ≠ "" := fun h => ho (by rw [h])
        cases component with
        | none =>
          simp [filter_findings, hs', ho', List.filter_filter]
          exact hfe _ _ _ fun f => by
            simp [matchesCriteria, Bool.and_comm, Bool.and_assoc, Bool.and_left_comm]
        | some c =>
          have hc' : c ≠ "" := fun h => hc (by rw [h])
          simp [filter_findings, hs', ho', hc', List.filter_filter]
          exact hfe _ _ _ fun f => by
            simp [matchesCriteria, Bool.and_comm, Bool.and_assoc, Bool.and_left_comm]
  · simp [filter_findings]

/-- C4 amended witness: the filter with severity high applied to a
two-finding report keeps exactly the high finding. -/
theorem c4_amended_witness :
    (some "high" : Option String) ≠ some "" ∧
    (none : Option String) ≠ some "" ∧
    (filter_findings [fHigh, { fHigh with severity := some "low" }]
          (some "high") none none
        = [fHigh, { fHigh with severity := some "low" }].filter
            (matchesCriteria (some "high") none none) ∧
      filter_findings [fHigh, { fHigh with severity := some "low" }] none none none
        = [fHigh, { fHigh with severity := some "low" }]) :=
  ⟨by decide, by decide,
    c4_amended_filter_conjunction _ (some "high") none none
      (by decide) (by decide) (by decide)⟩

/-- C10: a criterion passed as the empty string behaves exactly as if
it were absent (Python truthiness makes the filter skip it), and with
an empty-string criterion alone the full findings list comes back
unchanged, so filtering for findings whose severity is exactly the
empty string is impossible. -/
theorem c10_empty_string_criteria_ignored (findings : List Finding)
    (severity owasp_id component : Option String) :
    filter_findings findings (some "") owasp_id component
        = filter_findings findings none owasp_id component ∧
    filter_findings findings severity (some "") component
        = filter_findings findings severity none component ∧
    filter_findings findings severity owasp_id (some "")
        = filter_findings findings severity owasp_id none ∧
    filter_findings findings (some "") none none = findings ∧
    filter_findings findings none (some "") none = findings ∧
    filter_findings findings none none (some "") = findings := by
  refine ⟨?_, ?_, ?_, ?_, ?_, ?_⟩ <;> simp [filter_findings]

/-- One node of an inventory graph; only its id is consulted. -/
structure GNode where
  id : String
deriving DecidableEq

/-- One edge of an inventory graph, with source and target ids. -/
structure GEdge where
  source : String
  target : String
deriving DecidableEq

/-- One iteration of the frontier-expansion loop of `subgraph`: the set
comprehension collects, for every edge touching the frontier, the
source if the target is in the frontier and the target otherwise. -/
def next_frontier (edges : List GEdge) (frontier : Finset String) : Finset String :=
  (edges.filterMap fun e =>
    if e.source ∈ frontier ∨ e.target ∈ frontier then
      some (if e.target ∈ frontier then e.source else e.target)
    else none).toFinset

/-- The `for _ in range(depth)` loop of `subgraph`: repeatedly replaces
the frontier by its expansion and accumulates it into `keep`. -/
def subgraph_loop (edges : List GEdge) :
    Nat → Finset String → Finset String → Finset String
  | 0, _, keep => keep
  | d + 1, frontier, keep =>
    subgraph_loop edges d (next_frontier edges frontier)
      (keep ∪ next_frontier edges frontier)

/-- The `subgraph` endpoint core: starting from `frontier = keep =
set of the seed`, runs the loop `depth` times and returns the nodes
whose id was kept and the edges with both endpoints kept. -/
def subgraph (nodes : List GNode) (edges : List GEdge) (node : String)
    (depth : Nat) : List GNode × List GEdge :=
  let keep := subgraph_loop edges depth {node} {node}
  (nodes.filter fun n => decide (n.id ∈ keep),
   edges.filter fun e => decide (e.source ∈ keep) && decide (e.target ∈ keep))

/-- Undirected adjacency through the edge list: some edge joins `a`
and `b` in either orientation. -/
def Adjacent (edges : List GEdge) (a b : String) : Prop :=
  ∃ e ∈ edges, (e.source = a ∧ e.target = b) ∨ (e.source = b ∧ e.target = a)

/-- Reachability from `seed` within at most `d` undirected hops. -/
inductive ReachWithin (edges : List GEdge) (seed : String) : Nat → String → Prop where
  | refl (d : Nat) : ReachWithin edges seed d seed
  | step {d : Nat} {v w : String} (hv : ReachWithin edges seed d v)
      (hvw : Adjacent edges v w) : ReachWithin edges seed (d + 1) w

/-- The frontier after `k` iterations of the loop. -/
def frontier_iter (edges : List GEdge) (seed : String) : Nat → Finset String
  | 0 => {seed}
  | d + 1 => next_frontier edges (frontier_iter edges seed d)

/-- The kept set after `k` iterations of the loop. -/
def keep_iter (edges : List GEdge) (seed : String) : Nat → Finset String
  | 0 => {seed}
  | d + 1 => keep_iter edges seed d ∪ frontier_iter edges seed (d + 1)

theorem subgraph_loop_iter (edges : List GEdge) (seed : String) :
    ∀ (d k : Nat),
      subgraph_loop edges d (frontier_iter edges seed k) (keep_iter edges seed k)
        = keep_iter edges seed (k + d) := by
  intro d
  induction d with
  | zero => intro k; simp [subgraph_loop]
  | succ d ih =>
    intro k
    have h1 : next_frontier edges (frontier_iter edges seed k)
        = frontier_iter edges seed (k + 1) := rfl
    have h2 : keep_iter edges seed k ∪ frontier_iter edges seed (k + 1)
        = keep_iter edges seed (k + 1) := rfl
    simp only [subgraph_loop, h1, h2, ih (k + 1)]
    congr 1
    omega

theorem mem_next_frontier {edges : List GEdge} {frontier : Finset String}
    {w : String} :
    w ∈ next_frontier edges frontier ↔
      ∃ e ∈ edges, (e.source ∈ frontier ∨ e.target ∈ frontier) ∧
        w = if e.target ∈ frontier then e.source else e.target := by
  simp only [next_frontier, List.mem_toFinset, List.mem_filterMap]
  constructor
  · rintro ⟨e, he, hfe⟩
    by_cases hc : e.source ∈ frontier ∨ e.target ∈ frontier
    · rw [if_pos hc] at hfe
      exact ⟨e, he, hc, (Option.some_inj.mp hfe).symm⟩
    · rw [if_neg hc] at hfe
      exact absurd hfe (by simp)
  · rintro ⟨e, he, hc, hw⟩
    refine ⟨e, he, ?_⟩
    rw [if_pos hc, hw]

theorem reach_mono {edges : List GEdge} {seed : String} {d : Nat} {w : String}
    (h : ReachWithin edges seed d w) : ReachWithin edges seed (d + 1) w := by
  induction h with
  | refl d => exact ReachWithin.refl (d + 1)
  | step hv hvw ih => exact ReachWithin.step ih hvw

theorem reach_le {edges : List GEdge} {seed : String} {d d' : Nat} {w : String}
    (hdd : d ≤ d') (h : ReachWithin edges seed d w) :
    ReachWithin edges seed d' w := by
  induction hdd with
  | refl => exact h
  | step _ ih => exact reach_mono ih

theorem frontier_iter_reach (edges : List GEdge) (seed : String) :
    ∀ (k : Nat) (w : String),
      w ∈ frontier_iter edges seed k → ReachWithin edges seed k w := by
  intro k
  induction k with
  | zero =>
    intro w hw
    simp only [frontier_iter, Finset.mem_singleton] at hw
    exact hw ▸ ReachWithin.refl 0
  | succ k ih =>
    intro w hw
    obtain ⟨e, he, hc, hw'⟩ := mem_next_frontier.mp hw
    by_cases ht : e.target ∈ frontier_iter edges seed k
    · rw [if_pos ht] at hw'
      subst hw'
      exact ReachWithin.step (ih _ ht) ⟨e, he, Or.inr ⟨rfl, rfl⟩⟩
    · rw [if_neg ht] at hw'
      subst hw'
      have hs : e.source ∈ frontier_iter edges seed k := hc.resolve_right ht
      exact ReachWithin.step (ih _ hs) ⟨e, he, Or.inl ⟨rfl, rfl⟩⟩

theorem frontier_subset_keep (edges : List GEdge) (seed : String) (k : Nat) :
    frontier_iter edges seed k ⊆ keep_iter edges seed k := by
  cases k with
  | zero => exact Finset.Subset.refl _
  | succ k => exact Finset.subset_union_right

theorem keep_iter_mono (edges : List GEdge) (seed : String) {d d' : Nat}
    (h : d ≤ d') : keep_iter edges seed d ⊆ keep_iter edges seed d' := by
  induction h with
  | refl => exact Finset.Subset.refl _
  | step _ ih => exact ih.trans Finset.subset_union_left

theorem seed_mem_keep (edges : List GEdge) (seed : String) :
    ∀ d, seed ∈ keep_iter edges seed d := by
  intro d
  induction d with
  | zero => simp [keep_iter]
  | succ d ih => exact Finset.mem_union_left _ ih

theorem mem_keep_iter_iff (edges : List GEdge) (seed : String) :
    ∀ (d : Nat) (w : String),
      w ∈ keep_iter edges seed d ↔
        ∃ k, k ≤ d ∧ w ∈ frontier_iter edges seed k := by
  intro d
  induction d with
  | zero =>
    intro w
    constructor
    · intro hw
      exact ⟨0, Nat.le_refl 0, hw⟩
    · rintro ⟨k, hk, hw⟩
      have hk0 : k = 0 := Nat.le_zero.mp hk
      subst hk0
      exact hw
  | succ d ih =>
    intro w
    constructor
    · intro hw
      have hw' : w ∈ keep_iter edges seed d ∪ frontier_iter edges seed (d + 1) := hw
      rcases Finset.mem_union.mp hw' with h | h
      · obtain ⟨k, hk, hwk⟩ := (ih w).mp h
        exact ⟨k, Nat.le_succ_of_le hk, hwk⟩
      · exact ⟨d + 1, Nat.le_refl _, h⟩
    · rintro ⟨k, hk, hw⟩
      rcases Nat.lt_or_ge k (d + 1) with h | h
      · have hkd : k ≤ d := Nat.lt_succ_iff.mp h
        exact Finset.mem_union_left _ ((ih w).mpr ⟨k, hkd, hw⟩)
      · have hkeq : k = d + 1 := Nat.le_antisymm hk h
        subst hkeq
        exact Finset.mem_union_right _ hw

theorem adjacent_step_keep (edges : List GEdge) (seed : String) {k : Nat}
    {v w : String} (hv : v ∈ frontier_iter edges seed k)
    (hvw : Adjacent edges v w) : w ∈ keep_iter edges seed (k + 1) := by
  obtain ⟨e, he, hor⟩ := hvw
  rcases hor with ⟨hsv, htw⟩ | ⟨hsw, htv⟩
  · by_cases ht : e.target ∈ frontier_iter edges seed k
    · have hwf : w ∈ frontier_iter edges seed k := by rw [← htw]; exact ht
      exact Finset.mem_union_left _ (frontier_subset_keep edges seed k hwf)
    · have hcond : e.source ∈ frontier_iter edges seed k ∨
          e.target ∈ frontier_iter edges seed k := by
        left; rw [hsv]; exact hv
      have hwn : w ∈ frontier_iter edges seed (k + 1) := by
        refine mem_next_frontier.mpr ⟨e, he, hcond, ?_⟩
        rw [if_neg ht]
        exact htw.symm
      exact Finset.mem_union_right _ hwn
  · have ht : e.target ∈ frontier_iter edges seed k := by rw [htv]; exact hv
    have hwn : w ∈ frontier_iter edges seed (k + 1) := by
      refine mem_next_frontier.mpr ⟨e, he, Or.inr ht, ?_⟩
      rw [if_pos ht]
      exact hsw.symm
    exact Finset.mem_union_right _ hwn

theorem reach_subset_keep (edges : List GEdge) (seed : String) {d : Nat}
    {w : String} (h : ReachWithin edges seed d w) :
    w ∈ keep_iter edges seed d := by
  induction h with
  | refl d => exact seed_mem_keep edges seed d
  | step hv hvw ih =>
    obtain ⟨k, hk, hfk⟩ := (mem_keep_iter_iff edges seed _ _).mp ih
    exact keep_iter_mono edges seed (Nat.succ_le_succ hk)
      (adjacent_step_keep edges seed hfk hvw)

theorem subgraph_keep_characterization (edges : List GEdge) (seed : String)
    (d : Nat) (w : String) :
    w ∈ subgraph_loop edges d {seed} {seed} ↔ ReachWithin edges seed d w := by
  have h0 : subgraph_loop edges d {seed} {seed} = keep_iter edges seed d := by
    have h := subgraph_loop_iter edges seed d 0
    simpa [frontier_iter, keep_iter] using h
  rw [h0]
  constructor
  · intro hw
    obtain ⟨k, hk, hfk⟩ := (mem_keep_iter_iff edges seed d w).mp hw
    exact reach_le hk (frontier_iter_reach edges seed k w hfk)
  · exact reach_subset_keep edges seed

/-- The nodes of the path graph A - B - C - D. -/
def pathNodes : List GNode := [⟨"A"⟩, ⟨"B"⟩, ⟨"C"⟩, ⟨"D"⟩]

/-- The edges of the path graph A - B - C - D. -/
def pathEdges : List GEdge := [⟨"A", "B"⟩, ⟨"B", "C"⟩, ⟨"C", "D"⟩]

/-- C3: for every graph and every depth `1 ≤ d ≤ 5` with the seed
present among the node ids, `subgraph` returns exactly the nodes
reachable from the seed within `d` undirected hops together with the
edges whose both endpoints are reachable (the induced subgraph), and
on the path graph A - B - C - D the depth 1 and depth 2 neighborhoods
of A are as the specification states. -/
theorem c3_subgraph_is_undirected_neighborhood :
    (∀ (nodes : List GNode) (edges : List GEdge) (seed : String) (d : Nat),
        1 ≤ d → d ≤ 5 → seed ∈ nodes.map GNode.id →
        (∀ n : GNode, n ∈ (subgraph nodes edges seed d).1 ↔
            n ∈ nodes ∧ ReachWithin edges seed d n.id) ∧
        (∀ e : GEdge, e ∈ (subgraph nodes edges seed d).2 ↔
            e ∈ edges ∧ ReachWithin edges seed d e.source ∧
              ReachWithin edges seed d e.target)) ∧
    subgraph pathNodes pathEdges "A" 1 = ([⟨"A"⟩, ⟨"B"⟩], [⟨"A", "B"⟩]) ∧
    subgraph pathNodes pathEdges "A" 2
        = ([⟨"A"⟩, ⟨"B"⟩, ⟨"C"⟩], [⟨"A", "B"⟩, ⟨"B", "C"⟩]) := by
  refine ⟨?_, by decide, by decide⟩
  intro nodes edges seed d _ _ _
  constructor
  · intro n
    simp only [subgraph, List.mem_filter, decide_eq_true_eq]
    rw [subgraph_keep_characterization]
  · intro e
    simp only [subgraph, List.mem_filter, Bool.and_eq_true, decide_eq_true_eq]
    rw [subgraph_keep_characterization, subgraph_keep_characterization]

/-- C3 witness: the characterization instantiated on the path graph at
depth 1 from seed A, every hypothesis discharged concretely. -/
theorem c3_witness :
    (1 ≤ 1) ∧ (1 ≤ 5) ∧ "A" ∈ pathNodes.map GNode.id ∧
    ((∀ n : GNode, n ∈ (subgraph pathNodes pathEdges "A" 1).1 ↔
        n ∈ pathNodes ∧ ReachWithin pathEdges "A" 1 n.id) ∧
     (∀ e : GEdge, e ∈ (subgraph pathNodes pathEdges "A" 1).2 ↔
        e ∈ pathEdges ∧ ReachWithin pathEdges "A" 1 e.source ∧
          ReachWithin pathEdges "A" 1 e.target)) :=
  ⟨by decide, by decide, by decide,
    c3_subgraph_is_undirected_neighborhood.1 pathNodes pathEdges "A" 1
      (by decide) (by decide) (by decide)⟩

/-- C9: on a graph whose edges only join existing node ids, if the seed
id does not occur among the node ids then `subgraph` returns the empty
subgraph, with no failure (the function is total). -/
theorem c9_missing_seed_gives_empty_subgraph (nodes : List GNode)
    (edges : List GEdge) (seed : String) (d : Nat)
    (h1 : 1 ≤ d) (h5 : d ≤ 5)
    (hwf : ∀ e ∈ edges, e.source ∈ nodes.map GNode.id ∧
        e.target ∈ nodes.map GNode.id)
    (habs : seed ∉ nodes.map GNode.id) :
    subgraph nodes edges seed d = ([], []) := by
  have hreach : ∀ (dd : Nat) (w : String), ReachWithin edges seed dd w → w = seed := by
    intro dd w hw
    induction hw with
    | refl _ => rfl
    | step hv hvw ih =>
      exfalso
      obtain ⟨e, he, hor⟩ := hvw
      rcases hor with ⟨hsv, _⟩ | ⟨_, htv⟩
      · refine habs ?_
        have := (hwf e he).1
        rwa [hsv, ih] at this
      · refine habs ?_
        have := (hwf e he).2
        rwa [htv, ih] at this
  have hid : ∀ w, ReachWithin edges seed d w → w ∈ nodes.map GNode.id → False := by
    intro w hw hmem
    rw [hreach d w hw] at hmem
    exact habs hmem
  simp only [subgraph]
  refine Prod.ext ?_ ?_
  · simp only []
    rw [List.filter_eq_nil_iff]
    intro n hn
    simp only [decide_eq_true_eq]
    intro hk
    exact hid n.id ((subgraph_keep_characterization edges seed d n.id).mp hk)
      (List.mem_map_of_mem GNode.id hn)
  · simp only []
    rw [List.filter_eq_nil_iff]
    intro e he
    simp only [Bool.and_eq_true, decide_eq_true_eq, not_and]
    intro hks _
    exact hid e.source ((subgraph_keep_characterization edges seed d e.source).mp hks)
      (hwf e he).1
  
/-- C9 witness: a one-node graph with a self loop on A, queried from
the absent seed Z at depth 1, yields the empty subgraph. -/
theorem c9_witness :
    (1 ≤ 1) ∧ (1 ≤ 5) ∧
    (∀ e ∈ [(⟨"A", "A"⟩ : GEdge)],
        e.source ∈ [(⟨"A"⟩ : GNode)].map GNode.id ∧
        e.target ∈ [(⟨"A"⟩ : GNode)].map GNode.id) ∧
    "Z" ∉ [(⟨"A"⟩ : GNode)].map GNode.id ∧
    subgraph [⟨"A"⟩] [⟨"A", "A"⟩] "Z" 1 = ([], []) :=
  ⟨by decide, by decide, by decide, by decide,
    c9_missing_seed_gives_empty_subgraph [⟨"A"⟩] [⟨"A", "A"⟩] "Z" 1
      (by decide) (by decide) (by decide) (by decide)⟩

/-- Component splitting of a path string at slash characters, keeping
empty pieces, as pathlib does when parsing a path string. -/
def splitSlash : List Char → List (List Char)
  | [] => [[]]
  | c :: rest =>
    let ps := splitSlash rest
    if c = '/' then [] :: ps
    else (c :: ps.headI) :: ps.tail

theorem splitSlash_ne_nil (l : List Char) : splitSlash l ≠ [] := by
  cases l with
  | nil => simp [splitSlash]
  | cons c rest =>
    simp only [splitSlash]
    split
    · simp
    · simp

theorem headI_cons_tail {α : Type} [Inhabited α] (l : List α) (h : l ≠ []) :
    l.headI :: l.tail = l := by
  cases l with
  | nil => exact absurd rfl h
  | cons a t => rfl

theorem headI_mem {α : Type} [Inhabited α] (l : List α) (h : l ≠ []) :
    l.headI ∈ l := by
  cases l with
  | nil => exact absurd rfl h
  | cons a t => exact List.mem_cons_self a t

theorem splitSlash_no_slash (l : List Char) : ∀ c ∈ splitSlash l, '/' ∉ c := by
  induction l with
  | nil =>
    intro c hc
    simp only [splitSlash, List.mem_singleton] at hc
    simp [hc]
  | cons a rest ih =>
    intro c hc
    simp only [splitSlash] at hc
    by_cases ha : a = '/'
    · rw [if_pos ha] at hc
      rcases List.mem_cons.mp hc with h | h
      · simp [h]
      · exact ih c h
    · rw [if_neg ha] at hc
      rcases List.mem_cons.mp hc with h | h
      · subst h
        intro hmem
        rcases List.mem_cons.mp hmem with h' | h'
        · exact ha h'.symm
        · exact ih _ (headI_mem _ (splitSlash_ne_nil rest)) h'
      · exact ih c ((List.tail_sublist _).subset h)

/-- One step of `Path.resolve` component normalisation. -/
def normStep (acc : List (List Char)) (c : List Char) : List (List Char) :=
  if c = [] ∨ c = ['.'] then acc
  else if c = ['.', '.'] then acc.dropLast
  else acc ++ [c]

/-- Component normalisation performed by `Path.resolve`: empty and dot
components vanish, a dot-dot component pops the previous component. -/
def normPieces (pieces : List (List Char)) : List (List Char) :=
  pieces.foldl normStep []

/-- A canonical path component: non-empty, not a dot form, slash-free. -/
def CleanComp (c : List Char) : Prop :=
  c ≠ [] ∧ c ≠ ['.'] ∧ c ≠ ['.', '.'] ∧ '/' ∉ c

/-- All components canonical. -/
def CleanComps (l : List (List Char)) : Prop := ∀ c ∈ l, CleanComp c

instance : DecidablePred CleanComp := fun c => by
  unfold CleanComp
  infer_instance

instance (l : List (List Char)) : Decidable (CleanComps l) := by
  unfold CleanComps
  exact List.decidableBAll _ l

theorem foldl_normStep_clean (comps : List (List Char)) (h : CleanComps comps) :
    ∀ acc, comps.foldl normStep acc = acc ++ comps := by
  induction comps with
  | nil => simp
  | cons c rest ih =>
    intro acc
    obtain ⟨h1, h2, h3, _⟩ := h c (List.mem_cons_self c rest)
    have hstep : normStep acc c = acc ++ [c] := by
      rw [normStep, if_neg (by simp [h1, h2]), if_neg h3]
    simp only [List.foldl_cons, hstep,
      ih (fun x hx => h x (List.mem_cons_of_mem c hx)) (acc ++ [c])]
    simp

theorem normPieces_clean_id (comps : List (List Char)) (h : CleanComps comps) :
    normPieces comps = comps := by
  simpa using foldl_normStep_clean comps h []

theorem mem_foldl_normStep :
    ∀ (l acc : List (List Char)) (x : List Char), x ∈ l.foldl normStep acc →
      x ∈ acc ∨ (x ∈ l ∧ x ≠ [] ∧ x ≠ ['.'] ∧ x ≠ ['.', '.']) := by
  intro l
  induction l with
  | nil =>
    intro acc x hx
    exact Or.inl hx
  | cons c rest ih =>
    intro acc x hx
    simp only [List.foldl_cons] at hx
    rcases ih (normStep acc c) x hx with h | h
    · by_cases h1 : c = [] ∨ c = ['.']
      · rw [normStep, if_pos h1] at h
        exact Or.inl h
      · by_cases h2 : c = ['.', '.']
        · rw [normStep, if_neg h1, if_pos h2] at h
          exact Or.inl ((List.dropLast_sublist _).subset h)
        · rw [normStep, if_neg h1, if_neg h2] at h
          rcases List.mem_append.mp h with h | h
          · exact Or.inl h
          · simp only [List.mem_singleton] at h
            subst h
            push_neg at h1
            exact Or.inr ⟨List.mem_cons_self x rest, h1.1, h1.2, h2⟩
    · exact Or.inr ⟨List.mem_cons_of_mem c h.1, h.2.1, h.2.2.1, h.2.2.2⟩

theorem normPieces_output_clean (pieces : List (List Char))
    (hsl : ∀ c ∈ pieces, '/' ∉ c) : CleanComps (normPieces pieces) := by
  intro x hx
  rcases mem_foldl_normStep pieces [] x hx with h | h
  · simp at h
  · exact ⟨h.2.1, h.2.2.1, h.2.2.2, hsl x h.1⟩

theorem normPieces_nil_cons (pieces : List (List Char)) :
    normPieces ([] :: pieces) = normPieces pieces := by
  simp [normPieces, normStep]

/-- Joining path components with slashes (no leading slash). -/
def joinPieces : List (List Char) → List Char
  | [] => []
  | [c] => c
  | c :: c2 :: rest => c ++ '/' :: joinPieces (c2 :: rest)

/-- `str(p)` for an absolute canonical path with the given components. -/
def renderAbs (comps : List (List Char)) : String :=
  String.mk ('/' :: joinPieces comps)

theorem splitSlash_append (c : List Char) (hc : '/' ∉ c) (l : List Char) :
    splitSlash (c ++ l) = (c ++ (splitSlash l).headI) :: (splitSlash l).tail := by
  induction c with
  | nil =>
    simp only [List.nil_append]
    exact (headI_cons_tail _ (splitSlash_ne_nil l)).symm
  | cons a c ih =>
    have ha : a ≠ '/' := fun h => hc (by rw [← h]; exact List.mem_cons_self a c)
    have hc' : '/' ∉ c := fun h => hc (List.mem_cons_of_mem a h)
    simp only [List.cons_append, splitSlash]
    rw [if_neg ha]
    simp only [List.append_eq]
    rw [ih hc']
    simp

theorem splitSlash_join (comps : List (List Char))
    (h : ∀ c ∈ comps, '/' ∉ c) (hne : comps ≠ []) :
    splitSlash (joinPieces comps) = comps := by
  induction comps with
  | nil => exact absurd rfl hne
  | cons c rest ih =>
    cases rest with
    | nil =>
      have h2 : splitSlash c = [c] := by
        have h3 := splitSlash_append c (h c (by simp)) []
        simpa [splitSlash] using h3
      simpa [joinPieces] using h2
    | cons c2 rest2 =>
      have hc : '/' ∉ c := h c (by simp)
      have ihs := ih (fun x hx => h x (List.mem_cons_of_mem c hx)) (by simp)
      simp only [joinPieces]
      rw [splitSlash_append c hc]
      have hsp : splitSlash ('/' :: joinPieces (c2 :: rest2))
          = [] :: splitSlash (joinPieces (c2 :: rest2)) := by
        simp [splitSlash]
      rw [hsp, ihs]
      simp

/-- Error outcomes of an endpoint: a raised `HTTPException`, or an
unhandled Python exception (internal-error class). -/
inductive ApiError where
  | http (status : Nat) (msg : String)
  | py (msg : String)
deriving DecidableEq

/-- Split the characters after a leading tilde into the rest of the
tilde component (up to the first slash) and the remainder of the
path (beginning with that slash, when present). -/
def tildeSplit : List Char → List Char × List Char
  | [] => ([], [])
  | c :: rest =>
    if c = '/' then ([], c :: rest)
    else ((c :: (tildeSplit rest).1), (tildeSplit rest).2)

/-- No user database entry, for concrete instantiations. -/
def noUsers : String → Option (List (List Char)) := fun _ => none

/-- The component list of `ROOT / Path(s).expanduser()` before
`resolve` normalisation.  A bare leading tilde expands to the home
directory; a leading tilde-user component expands to that user
directory when the account exists and otherwise makes `expanduser`
raise RuntimeError (an unhandled internal error); an absolute input
overrides the root (pathlib join semantics); anything else is
appended after the root components. -/
def expandJoin (root home : List (List Char))
    (users : String → Option (List (List Char))) (s : List Char) :
    Except ApiError (List (List Char)) :=
  match s with
  | [] => Except.ok (root ++ splitSlash [])
  | a :: rest =>
    if a = '~' then
      if (tildeSplit rest).1 = [] then
        Except.ok (home ++ splitSlash (tildeSplit rest).2)
      else
        match users (String.mk (tildeSplit rest).1) with
        | some uhome => Except.ok (uhome ++ splitSlash (tildeSplit rest).2)
        | none => Except.error
            (ApiError.py "RuntimeError: could not determine home directory")
    else if a = '/' then Except.ok (splitSlash (a :: rest))
    else Except.ok (root ++ splitSlash (a :: rest))

/-- `_safe(path)`: resolves `(ROOT / Path(path).expanduser())` and
rejects with HTTP 403 when the canonical result is not inside the
workspace root (`is_relative_to` on absolute paths is the component
prefix test).  A RuntimeError from `expanduser` propagates unhandled. -/
def safe (root home : List (List Char))
    (users : String → Option (List (List Char))) (path : String) :
    Except ApiError (List (List Char)) :=
  match expandJoin root home users path.data with
  | Except.error e => Except.error e
  | Except.ok pieces =>
    if root <+: normPieces pieces then Except.ok (normPieces pieces)
    else Except.error (ApiError.http 403 "cannot go outside workspace")

theorem expandJoin_ok_no_slash (root home : List (List Char))
    (users : String → Option (List (List Char)))
    (hr : ∀ c ∈ root, '/' ∉ c) (hh : ∀ c ∈ home, '/' ∉ c)
    (hu : ∀ name dir, users name = some dir → ∀ c ∈ dir, '/' ∉ c)
    (s : List Char) (pieces : List (List Char))
    (hok : expandJoin root home users s = Except.ok pieces) :
    ∀ c ∈ pieces, '/' ∉ c := by
  intro c hc
  cases s with
  | nil =>
    simp only [expandJoin, Except.ok.injEq] at hok
    subst hok
    rcases List.mem_append.mp hc with h | h
    · exact hr c h
    · exact splitSlash_no_slash [] c h
  | cons a rest =>
    simp only [expandJoin] at hok
    by_cases ha : a = '~'
    · rw [if_pos ha] at hok
      by_cases hth : (tildeSplit rest).1 = []
      · rw [if_pos hth] at hok
        simp only [Except.ok.injEq] at hok
        subst hok
        rcases List.mem_append.mp hc with h | h
        · exact hh c h
        · exact splitSlash_no_slash _ c h
      · rw [if_neg hth] at hok
        rcases hus : users (String.mk (tildeSplit rest).1) with _ | uhome
        · rw [hus] at hok
          exact Except.noConfusion hok
        · rw [hus] at hok
          simp only [Except.ok.injEq] at hok
          subst hok
          rcases List.mem_append.mp hc with h | h
          · exact hu _ uhome hus c h
          · exact splitSlash_no_slash _ c h
    · rw [if_neg ha] at hok
      by_cases hs : a = '/'
      · rw [if_pos hs] at hok
        simp only [Except.ok.injEq] at hok
        subst hok
        exact splitSlash_no_slash _ c hc
      · rw [if_neg hs] at hok
        simp only [Except.ok.injEq] at hok
        subst hok
        rcases List.mem_append.mp hc with h | h
        · exact hr c h
        · exact splitSlash_no_slash _ c h

theorem normPieces_render_roundtrip (p : List (List Char))
    (hclean : CleanComps p) :
    normPieces (splitSlash (renderAbs p).data) = p := by
  have hd : (renderAbs p).data = '/' :: joinPieces p := rfl
  rw [hd]
  have h1 : splitSlash ('/' :: joinPieces p) = [] :: splitSlash (joinPieces p) := by
    simp [splitSlash]
  rw [h1, normPieces_nil_cons]
  by_cases hp : p = []
  · subst hp
    simp [joinPieces, splitSlash, normPieces, normStep]
  · rw [splitSlash_join p (fun c hc => (hclean c hc).2.2.2) hp]
    exact normPieces_clean_id p hclean

/-- C7 counterexample: on the input tilde-nobody naming a user with no
account, `expanduser` raises RuntimeError, so `_safe` neither returns
a path inside the root nor fails with the 403 path-escape rejection:
the claimed two-way outcome is false of the program. -/
theorem c7_counterexample :
    safe [[ 'w' ]] [[ 'h' ]] noUsers "~nobody"
        = Except.error
            (ApiError.py "RuntimeError: could not determine home directory") ∧
    ApiError.py "RuntimeError: could not determine home directory"
        ≠ ApiError.http 403 "cannot go outside workspace" := by
  constructor
  · rfl
  · decide

/-- C7 amended: for every path input on which the leading-tilde
expansion succeeds (every input that does not name an unknown
tilde-user account), `_safe` either returns the canonical absolute
path resolved inside the workspace root, or rejects with the 403
path-escape error exactly when the canonical result is not inside the
root; and on every accepted path the result is canonical
(normalisation leaves it fixed) and re-resolving its rendered form
returns it unchanged.  An unknown tilde-user input instead propagates
an unhandled RuntimeError, which is what the counterexample forces
the claim to exclude. -/
theorem c7_amended_expansion_ok_inside_or_escape
    (root home : List (List Char))
    (users : String → Option (List (List Char)))
    (hr : CleanComps root) (hh : CleanComps home)
    (hu : ∀ name dir, users name = some dir → CleanComps dir) :
    (∀ (path : String) (pieces : List (List Char)),
      expandJoin root home users path.data = Except.ok pieces →
      (root <+: normPieces pieces →
        safe root home users path = Except.ok (normPieces pieces)) ∧
      (¬ root <+: normPieces pieces →
        safe root home users path
          = Except.error (ApiError.http 403 "cannot go outside workspace"))) ∧
    (∀ (path : String) (p : List (List Char)),
      safe root home users path = Except.ok p →
      root <+: p ∧ normPieces p = p ∧
        safe root home users (renderAbs p) = Except.ok p) := by
  constructor
  · intro path pieces hok
    constructor
    · intro h
      simp only [safe, hok]
      rw [if_pos h]
    · intro h
      simp only [safe, hok]
      rw [if_neg h]
  · intro path p hok
    cases hexp : expandJoin root home users path.data with
    | error e =>
      exfalso
      simp only [safe, hexp] at hok
      exact Except.noConfusion hok
    | ok pieces =>
      by_cases hpre : root <+: normPieces pieces
      · have hp : p = normPieces pieces := by
          simp only [safe, hexp] at hok
          rw [if_pos hpre] at hok
          exact (Except.ok.injEq _ _).mp hok.symm
        subst hp
        have hclean : CleanComps (normPieces pieces) :=
          normPieces_output_clean _
            (expandJoin_ok_no_slash root home users
              (fun c hc => (hr c hc).2.2.2) (fun c hc => (hh c hc).2.2.2)
              (fun name dir hd c hc => (hu name dir hd c hc).2.2.2)
              path.data pieces hexp)
        refine ⟨hpre, normPieces_clean_id _ hclean, ?_⟩
        have hexp2 : expandJoin root home users
            (renderAbs (normPieces pieces)).data
            = Except.ok (splitSlash (renderAbs (normPieces pieces)).data) := by
          simp [renderAbs, expandJoin]
        simp only [safe, hexp2, normPieces_render_roundtrip _ hclean]
        rw [if_pos hpre]
      · exfalso
        simp only [safe, hexp] at hok
        rw [if_neg hpre] at hok
        exact Except.noConfusion hok

/-- C7 amended witness: a concrete one-component root and home with an
empty user database; the guard instantiated there, every hypothesis
discharged concretely. -/
theorem c7_amended_witness :
    CleanComps [[ 'w' ]] ∧ CleanComps [[ 'h' ]] ∧
    (∀ name dir, noUsers name = some dir → CleanComps dir) ∧
    ((∀ (path : String) (pieces : List (List Char)),
      expandJoin [[ 'w' ]] [[ 'h' ]] noUsers path.data = Except.ok pieces →
      ([[ 'w' ]] <+: normPieces pieces →
        safe [[ 'w' ]] [[ 'h' ]] noUsers path = Except.ok (normPieces pieces)) ∧
      (¬ [[ 'w' ]] <+: normPieces pieces →
        safe [[ 'w' ]] [[ 'h' ]] noUsers path
          = Except.error (ApiError.http 403 "cannot go outside workspace"))) ∧
    (∀ (path : String) (p : List (List Char)),
      safe [[ 'w' ]] [[ 'h' ]] noUsers path = Except.ok p →
      [[ 'w' ]] <+: p ∧ normPieces p = p ∧
        safe [[ 'w' ]] [[ 'h' ]] noUsers (renderAbs p) = Except.ok p)) :=
  ⟨by decide, by decide, fun _ _ h => Option.noConfusion h,
    c7_amended_expansion_ok_inside_or_escape [[ 'w' ]] [[ 'h' ]] noUsers
      (by decide) (by decide) (fun _ _ h => Option.noConfusion h)⟩
def isAbsPath (s : List Char) : Bool :=
  match s with
  | '/' :: _ => true
  | _ => false

/-- `Path(s).resolve()`: canonical absolute components, resolving a
relative path against the current working directory components. -/
def resolvePath (cwd : List (List Char)) (s : List Char) :
    List (List Char) :=
  if isAbsPath s then normPieces (splitSlash s)
  else normPieces (cwd ++ splitSlash s)

/-- `str` of the relative path returned by `relative_to`: a dot for
the empty relative path, otherwise slash-joined components. -/
def renderRel (comps : List (List Char)) : String :=
  match comps with
  | [] => "."
  | _ => String.mk (joinPieces comps)

/-- `p.relative_to(base)` rendered with `str`: defined exactly when the
base components are a prefix of the path components (otherwise pathlib
raises `ValueError`, here `none`). -/
def relative_to_str (p base : List (List Char)) : Option String :=
  if base <+: p then some (renderRel (p.drop base.length)) else none

/-- The per-finding location rewrite inside `results`: an absent or
empty location is skipped; otherwise the location is resolved and made
relative to the run sandbox subdirectory, and any failure of that
conversion (location outside the base) leaves the finding unchanged. -/
def rewrite_location (cwd base : List (List Char)) (f : Finding) : Finding :=
  match f.location with
  | none => f
  | some loc =>
    if loc = "" then f
    else
      match relative_to_str (resolvePath cwd loc.data) base with
      | some rel => { f with location := some rel }
      | none => f

/-- The whole-report rewrite of `results` over the findings list. -/
def rewrite_findings (cwd base : List (List Char))
    (findings : List Finding) : List Finding :=
  findings.map (rewrite_location cwd base)

/-- C5: the location rewrite of `results` never drops or reorders
findings (the read cannot fail on a bad location), leaves severity and
owasp id untouched, and rewrites the location to the sandbox-relative
form exactly when the location is present, non-empty, and resolves
inside the sandbox subdirectory; otherwise the location is returned
unchanged. -/
theorem c5_location_rewrite_iff_inside (cwd base : List (List Char))
    (findings : List Finding) :
    (rewrite_findings cwd base findings).length = findings.length ∧
    (∀ i : Nat, (rewrite_findings cwd base findings)[i]?
        = (findings[i]?).map (rewrite_location cwd base)) ∧
    (∀ f : Finding,
      (rewrite_location cwd base f).severity = f.severity ∧
      (rewrite_location cwd base f).owasp_id = f.owasp_id ∧
      ((f.location = none ∨ f.location = some "") →
        (rewrite_location cwd base f).location = f.location) ∧
      (∀ loc : String, f.location = some loc → loc ≠ "" →
        base <+: resolvePath cwd loc.data →
        (rewrite_location cwd base f).location
          = some (renderRel ((resolvePath cwd loc.data).drop base.length))) ∧
      (∀ loc : String, f.location = some loc → loc ≠ "" →
        ¬ base <+: resolvePath cwd loc.data →
        (rewrite_location cwd base f).location = f.location)) := by
  refine ⟨by simp [rewrite_findings], fun i => by simp [rewrite_findings], ?_⟩
  intro f
  refine ⟨?_, ?_, ?_, ?_, ?_⟩
  · rcases hf : f.location with _ | loc
    · simp [rewrite_location, hf]
    · by_cases hl : loc = ""
      · simp [rewrite_location, hf, hl]
      · simp only [rewrite_location, hf]
        rw [if_neg hl]
        rcases hrel : relative_to_str (resolvePath cwd loc.data) base with _ | rel
        · simp
        · simp
  · rcases hf : f.location with _ | loc
    · simp [rewrite_location, hf]
    · by_cases hl : loc = ""
      · simp [rewrite_location, hf, hl]
      · simp only [rewrite_location, hf]
        rw [if_neg hl]
        rcases hrel : relative_to_str (resolvePath cwd loc.data) base with _ | rel
        · simp
        · simp
  · intro hf
    rcases hf with hf | hf <;> simp [rewrite_location, hf]
  · intro loc hf hl hin
    simp only [rewrite_location, hf]
    rw [if_neg hl]
    have hrel : relative_to_str (resolvePath cwd loc.data) base
        = some (renderRel ((resolvePath cwd loc.data).drop base.length)) := by
      rw [relative_to_str, if_pos hin]
    rw [hrel]
  · intro loc hf hl hout
    simp only [rewrite_location, hf]
    rw [if_neg hl]
    have hrel : relative_to_str (resolvePath cwd loc.data) base = none := by
      rw [relative_to_str, if_neg hout]
    rw [hrel, hf]

/-- A concrete finding whose location lies inside the sandbox
subdirectory used by the C5 witness. -/
def fInside : Finding :=
  { severity := some "high", owasp_id := some "LLM01",
    location := some "/tmp/x.py" }

/-- C5 witness: with base the components of /tmp, the location
/tmp/x.py of a concrete finding is rewritten to the relative x.py. -/
theorem c5_witness :
    fInside.location = some "/tmp/x.py" ∧
    "/tmp/x.py" ≠ "" ∧
    [[ 't', 'm', 'p' ]] <+: resolvePath [[ 's' ]] "/tmp/x.py".data ∧
    (rewrite_location [[ 's' ]] [[ 't', 'm', 'p' ]] fInside).location
      = some (renderRel ((resolvePath [[ 's' ]] "/tmp/x.py".data).drop
          [[ 't', 'm', 'p' ]].length)) :=
  ⟨rfl, by decide, by decide,
    ((c5_location_rewrite_iff_inside [[ 's' ]] [[ 't', 'm', 'p' ]]
        [fInside]).2.2 fInside).2.2.2.1 "/tmp/x.py" rfl (by decide) (by decide)⟩

/-- A JSON value of the shapes the endpoints inspect in report files:
strings, arrays and objects. -/
inductive Json where
  | str : String → Json
  | arr : List Json → Json
  | obj : List (String × Json) → Json

/-- A JSON object as an ordered key-value list. -/
abbrev JsonObj := List (String × Json)

/-- Python `d.get(k)` on an object: first binding of the key. -/
def jget : JsonObj → String → Option Json
  | [], _ => none
  | (k, v) :: rest, key => if k = key then some v else jget rest key

/-- Python `d[k] = v`: replaces the binding or appends a new one. -/
def jset : JsonObj → String → Json → JsonObj
  | [], key, v => [(key, v)]
  | (k, w) :: rest, key, v =>
    if k = key then (k, v) :: rest else (k, w) :: jset rest key v

/-- Python `needle in hay` for the JSON values of this model:
substring for strings, element equality for arrays, key membership
for objects. -/
def jsonContains (needle : String) (hay : Json) : Bool :=
  match hay with
  | Json.str h => strContains needle h
  | Json.arr l => l.any fun j =>
      match j with
      | Json.str s => s == needle
      | _ => false
  | Json.obj kvs => kvs.any fun kv => kv.1 == needle

/-- `data.get("status") == "pending"`: true only when the value is the
string pending. -/
def isPendingSentinel (data : JsonObj) : Bool :=
  match jget data "status" with
  | some (Json.str s) => s == "pending"
  | _ => false

/-- `data.get(k)` applied to one finding of the comprehension; findings
that are not objects make the comprehension raise in Python. -/
def finding_get (f : Json) (k : String) : Except ApiError (Option Json) :=
  match f with
  | Json.obj kvs => Except.ok (jget kvs k)
  | _ => Except.error (ApiError.py "AttributeError")

/-- One Python list comprehension with a possibly raising predicate:
the first raise aborts the whole comprehension. -/
def pyFilter (p : Json → Except ApiError Bool) :
    List Json → Except ApiError (List Json)
  | [] => Except.ok []
  | f :: rest => do
    let b ← p f
    let tail ← pyFilter p rest
    Except.ok (if b then f :: tail else tail)

/-- The severity test `f.get("severity") == severity`. -/
def severityTest (s : String) : Json → Except ApiError Bool := fun f => do
  let v ← finding_get f "severity"
  Except.ok (match v with
    | some (Json.str sv) => sv == s
    | _ => false)

/-- The owasp test `owasp_id in f.get("owasp_id", "")`. -/
def owaspTest (s : String) : Json → Except ApiError Bool := fun f => do
  let v ← finding_get f "owasp_id"
  Except.ok (jsonContains s (v.getD (Json.str "")))

/-- The component test `component in f.get("location", "")`. -/
def componentTest (s : String) : Json → Except ApiError Bool := fun f => do
  let v ← finding_get f "location"
  Except.ok (jsonContains s (v.getD (Json.str "")))

/-- One truthiness-guarded filter stage of `filter_scan`. -/
def applyCrit (crit : Option String)
    (p : String → Json → Except ApiError Bool)
    (findings : List Json) : Except ApiError (List Json) :=
  match crit with
  | some s => if s = "" then Except.ok findings else pyFilter (p s) findings
  | none => Except.ok findings

/-- `data.get("findings", [])` followed by iteration as finding
records; a present non-array value cannot be filtered and raises. -/
def getFindings (data : JsonObj) : Except ApiError (List Json) :=
  match jget data "findings" with
  | none => Except.ok []
  | some (Json.arr l) => Except.ok l
  | some _ => Except.error (ApiError.py "TypeError")

/-- `data["type"] != "scan"` is false exactly for the string scan. -/
def typeIsScan (t : Json) : Bool :=
  match t with
  | Json.str s => s == "scan"
  | _ => false

/-- `filter_scan` after `results` produced the report `data`: a pending
sentinel passes through; a data object without a type key raises
KeyError (unhandled, internal-error class); a non-scan type is
rejected with HTTP 400; otherwise the three guarded filters run over
the findings and the result is stored back. -/
def filter_scan (data : JsonObj)
    (severity owasp_id component : Option String) :
    Except ApiError JsonObj :=
  if isPendingSentinel data then Except.ok data
  else
    match jget data "type" with
    | none => Except.error (ApiError.py "KeyError: type")
    | some t =>
      if typeIsScan t then do
        let findings ← getFindings data
        let f1 ← applyCrit severity severityTest findings
        let f2 ← applyCrit owasp_id owaspTest f1
        let f3 ← applyCrit component componentTest f2
        Except.ok (jset data "findings" (Json.arr f3))
      else Except.error (ApiError.http 400 "not a scan run")

/-- An inventory report of exactly the shape stated in the external
interface section of the specification: a single graph key. -/
def inventoryShapeSpec : JsonObj :=
  [("graph", Json.obj [("nodes", Json.arr []), ("edges", Json.arr [])])]

/-- C8 counterexample: on an inventory report of the spec-stated shape
(no type key), `filter_scan` raises an unhandled KeyError — an
internal-error outcome — instead of the claimed bad-request
WrongRunType rejection. -/
theorem c8_counterexample :
    filter_scan inventoryShapeSpec none none none
        = Except.error (ApiError.py "KeyError: type") ∧
    ApiError.py "KeyError: type" ≠ ApiError.http 400 "not a scan run" := by
  constructor
  · rfl
  · decide

/-- C8 amended: on a completed inventory run whose report carries a
top-level type key equal to inventory (as the reports the code actually
consumes do), and which is not the pending sentinel, `filter_scan`
fails with the bad-request HTTP 400 rejection; the spec-shaped report
without a type key instead raises an internal KeyError, which is what
the counterexample forces the claim to exclude. -/
theorem c8_amended_wrong_run_type_bad_request (data : JsonObj)
    (severity owasp_id component : Option String)
    (hpend : isPendingSentinel data = false)
    (hty : jget data "type" = some (Json.str "inventory")) :
    filter_scan data severity owasp_id component
        = Except.error (ApiError.http 400 "not a scan run") := by
  simp only [filter_scan, hpend, hty]
  simp [typeIsScan]

/-- A concrete completed inventory report as the tool writes it. -/
def invReport : JsonObj :=
  [("type", Json.str "inventory"),
   ("data", Json.obj [("nodes", Json.arr []), ("edges", Json.arr [])])]

/-- C8 amended witness on a concrete inventory report. -/
theorem c8_amended_witness :
    isPendingSentinel invReport = false ∧
    jget invReport "type" = some (Json.str "inventory") ∧
    filter_scan invReport none none none
        = Except.error (ApiError.http 400 "not a scan run") :=
  ⟨rfl, rfl,
    c8_amended_wrong_run_type_bad_request invReport none none none rfl rfl⟩

/-- The ASCII digit character of `n < 10`. -/
def dChar (n : Nat) : Char := Char.ofNat (48 + n)

/-- The numeric value of an ASCII digit character. -/
def digitVal (c : Char) : Nat := c.toNat - 48

/-- Two-digit zero-padded rendering. -/
def pad2 (n : Nat) : List Char := [dChar (n / 10), dChar (n % 10)]

/-- Four-digit zero-padded rendering. -/
def pad4 (n : Nat) : List Char :=
  [dChar (n / 1000), dChar (n / 100 % 10), dChar (n / 10 % 10), dChar (n % 10)]

/-- Six-digit zero-padded rendering. -/
def pad6 (n : Nat) : List Char :=
  [dChar (n / 100000), dChar (n / 10000 % 10), dChar (n / 1000 % 10),
   dChar (n / 100 % 10), dChar (n / 10 % 10), dChar (n % 10)]

/-- `datetime.isoformat()` of a UTC datetime: the microseconds part is
omitted when zero and the UTC offset renders as +00:00. -/
def isoChars (dt : PyDateTime) : List Char :=
  pad4 dt.year ++ '-' :: pad2 dt.month ++ '-' :: pad2 dt.day
    ++ 'T' :: pad2 dt.hour ++ ':' :: pad2 dt.minute ++ ':' :: pad2 dt.second
    ++ (if dt.microsecond = 0 then [] else '.' :: pad6 dt.microsecond)
    ++ [ '+', '0', '0', ':', '0', '0' ]

/-- `datetime.isoformat()` as a string. -/
def isoformat (dt : PyDateTime) : String := String.mk (isoChars dt)

/-- The pydantic datetime validation, modelled on the UTC ISO-8601
forms that `isoformat` emits: with and without a microseconds part. -/
def parseIsoChars : List Char → Option PyDateTime
  | [y1, y2, y3, y4, '-', o1, o2, '-', d1, d2, 'T', h1, h2, ':', i1, i2, ':',
     s1, s2, '+', '0', '0', ':', '0', '0'] =>
    some ⟨digitVal y1 * 1000 + digitVal y2 * 100 + digitVal y3 * 10 + digitVal y4,
      digitVal o1 * 10 + digitVal o2, digitVal d1 * 10 + digitVal d2,
      digitVal h1 * 10 + digitVal h2, digitVal i1 * 10 + digitVal i2,
      digitVal s1 * 10 + digitVal s2, 0⟩
  | [y1, y2, y3, y4, '-', o1, o2, '-', d1, d2, 'T', h1, h2, ':', i1, i2, ':',
     s1, s2, '.', u1, u2, u3, u4, u5, u6, '+', '0', '0', ':', '0', '0'] =>
    some ⟨digitVal y1 * 1000 + digitVal y2 * 100 + digitVal y3 * 10 + digitVal y4,
      digitVal o1 * 10 + digitVal o2, digitVal d1 * 10 + digitVal d2,
      digitVal h1 * 10 + digitVal h2, digitVal i1 * 10 + digitVal i2,
      digitVal s1 * 10 + digitVal s2,
      digitVal u1 * 100000 + digitVal u2 * 10000 + digitVal u3 * 1000
        + digitVal u4 * 100 + digitVal u5 * 10 + digitVal u6⟩
  | _ => none

theorem digitVal_dChar (n : Nat) (h : n < 10) : digitVal (dChar n) = n := by
  interval_cases n <;> rfl

theorem pad2_val (n : Nat) (h : n < 100) :
    digitVal (dChar (n / 10)) * 10 + digitVal (dChar (n % 10)) = n := by
  rw [digitVal_dChar _ (by omega), digitVal_dChar _ (by omega)]
  omega

theorem pad4_val (n : Nat) (h : n < 10000) :
    digitVal (dChar (n / 1000)) * 1000 + digitVal (dChar (n / 100 % 10)) * 100
      + digitVal (dChar (n / 10 % 10)) * 10 + digitVal (dChar (n % 10)) = n := by
  rw [digitVal_dChar _ (by omega), digitVal_dChar _ (by omega),
    digitVal_dChar _ (by omega), digitVal_dChar _ (by omega)]
  omega

theorem pad6_val (n : Nat) (h : n < 1000000) :
    digitVal (dChar (n / 100000)) * 100000 + digitVal (dChar (n / 10000 % 10)) * 10000
      + digitVal (dChar (n / 1000 % 10)) * 1000 + digitVal (dChar (n / 100 % 10)) * 100
      + digitVal (dChar (n / 10 % 10)) * 10 + digitVal (dChar (n % 10)) = n := by
  rw [digitVal_dChar _ (by omega), digitVal_dChar _ (by omega),
    digitVal_dChar _ (by omega), digitVal_dChar _ (by omega),
    digitVal_dChar _ (by omega), digitVal_dChar _ (by omega)]
  omega

theorem parseIso_isoChars (dt : PyDateTime) (hy : dt.year < 10000)
    (hmo : dt.month < 100) (hd : dt.day < 100) (hh : dt.hour < 100)
    (hmi : dt.minute < 100) (hs : dt.second < 100)
    (hu : dt.microsecond < 1000000) :
    parseIsoChars (isoChars dt) = some dt := by
  obtain ⟨y, mo, d, h, mi, s, u⟩ := dt
  simp only at hy hmo hd hh hmi hs hu
  by_cases hu0 : u = 0
  · subst hu0
    refine @Eq.trans _ (parseIsoChars (isoChars ⟨y, mo, d, h, mi, s, 0⟩))
      (some
        ⟨digitVal (dChar (y / 1000)) * 1000 + digitVal (dChar (y / 100 % 10)) * 100
            + digitVal (dChar (y / 10 % 10)) * 10 + digitVal (dChar (y % 10)),
          digitVal (dChar (mo / 10)) * 10 + digitVal (dChar (mo % 10)),
          digitVal (dChar (d / 10)) * 10 + digitVal (dChar (d % 10)),
          digitVal (dChar (h / 10)) * 10 + digitVal (dChar (h % 10)),
          digitVal (dChar (mi / 10)) * 10 + digitVal (dChar (mi % 10)),
          digitVal (dChar (s / 10)) * 10 + digitVal (dChar (s % 10)), 0⟩)
      (some ⟨y, mo, d, h, mi, s, 0⟩) rfl ?_
    simp only [Option.some.injEq, PyDateTime.mk.injEq]
    exact ⟨pad4_val y hy, pad2_val mo hmo, pad2_val d hd, pad2_val h hh,
      pad2_val mi hmi, pad2_val s hs, trivial⟩
  · have hbody : isoChars ⟨y, mo, d, h, mi, s, u⟩
        = pad4 y ++ '-' :: pad2 mo ++ '-' :: pad2 d
          ++ 'T' :: pad2 h ++ ':' :: pad2 mi ++ ':' :: pad2 s
          ++ ('.' :: pad6 u) ++ [ '+', '0', '0', ':', '0', '0' ] := by
      simp only [isoChars, if_neg hu0]
    rw [hbody]
    refine @Eq.trans _
      (parseIsoChars (pad4 y ++ '-' :: pad2 mo ++ '-' :: pad2 d
        ++ 'T' :: pad2 h ++ ':' :: pad2 mi ++ ':' :: pad2 s
        ++ ('.' :: pad6 u) ++ [ '+', '0', '0', ':', '0', '0' ]))
      (some
        ⟨digitVal (dChar (y / 1000)) * 1000 + digitVal (dChar (y / 100 % 10)) * 100
            + digitVal (dChar (y / 10 % 10)) * 10 + digitVal (dChar (y % 10)),
          digitVal (dChar (mo / 10)) * 10 + digitVal (dChar (mo % 10)),
          digitVal (dChar (d / 10)) * 10 + digitVal (dChar (d % 10)),
          digitVal (dChar (h / 10)) * 10 + digitVal (dChar (h % 10)),
          digitVal (dChar (mi / 10)) * 10 + digitVal (dChar (mi % 10)),
          digitVal (dChar (s / 10)) * 10 + digitVal (dChar (s % 10)),
          digitVal (dChar (u / 100000)) * 100000
            + digitVal (dChar (u / 10000 % 10)) * 10000
            + digitVal (dChar (u / 1000 % 10)) * 1000
            + digitVal (dChar (u / 100 % 10)) * 100
            + digitVal (dChar (u / 10 % 10)) * 10 + digitVal (dChar (u % 10))⟩)
      (some ⟨y, mo, d, h, mi, s, u⟩) rfl ?_
    simp only [Option.some.injEq, PyDateTime.mk.injEq]
    exact ⟨pad4_val y hy, pad2_val mo hmo, pad2_val d hd, pad2_val h hh,
      pad2_val mi hmi, pad2_val s hs, pad6_val u hu⟩

/-- The status literal as persisted. -/
def statusStr : RunStatus → String
  | RunStatus.pending => "pending"
  | RunStatus.done => "done"
  | RunStatus.error => "error"

/-- The pydantic `Literal` validation of the status field. -/
def parseStatus (s : String) : Option RunStatus :=
  if s = "pending" then some RunStatus.pending
  else if s = "done" then some RunStatus.done
  else if s = "error" then some RunStatus.error
  else none

/-- The run-type value as persisted (a str enum). -/
def typeStr : RunType → String
  | RunType.scan => "scan"
  | RunType.inventory => "inventory"

/-- The pydantic validation of the run-type field. -/
def parseType (s : String) : Option RunType :=
  if s = "scan" then some RunType.scan
  else if s = "inventory" then some RunType.inventory
  else none

/-- `model_dump` of one record followed by the datetime-to-isoformat
default of `_json_dump`: the persisted JSON object, fields in
declaration order. -/
def dumpRun (r : RunSummary) : Json :=
  Json.obj [("run_id", Json.str r.run_id), ("type", Json.str (typeStr r.type)),
    ("created", Json.str (isoformat r.created)),
    ("status", Json.str (statusStr r.status)), ("path", Json.str r.path)]

/-- `RunSummary.model_validate` over a parsed JSON object. -/
def parseRun (j : Json) : Option RunSummary :=
  match j with
  | Json.obj kvs =>
    match jget kvs "run_id", jget kvs "type", jget kvs "created",
        jget kvs "status", jget kvs "path" with
    | some (Json.str rid), some (Json.str ty), some (Json.str cr),
        some (Json.str st), some (Json.str pa) =>
      match parseType ty, parseIsoChars cr.data, parseStatus st with
      | some ty2, some cr2, some st2 => some ⟨rid, ty2, cr2, st2, pa⟩
      | _, _, _ => none
    | _, _, _, _, _ => none
  | _ => none

/-- `_save_runs`: the registry list serialised, order preserved. -/
def save_runs (lst : List RunSummary) : Json :=
  Json.arr (lst.map dumpRun)

/-- Per-record validation of the loaded array, any invalid record
failing the whole load, as pydantic does in `_runs`. -/
def parseRunList : List Json → Option (List RunSummary)
  | [] => some []
  | j :: rest =>
    match parseRun j, parseRunList rest with
    | some r, some rs => some (r :: rs)
    | _, _ => none

/-- `_runs`: reading the persisted registry back. -/
def load_runs (j : Json) : Option (List RunSummary) :=
  match j with
  | Json.arr items => parseRunList items
  | _ => none

/-- The field ranges a real Python datetime satisfies (generous
bounds; the rendering is the zero-padded isoformat). -/
def DtBounds (dt : PyDateTime) : Prop :=
  dt.year < 10000 ∧ dt.month < 100 ∧ dt.day < 100 ∧ dt.hour < 100 ∧
  dt.minute < 100 ∧ dt.second < 100 ∧ dt.microsecond < 1000000

instance (dt : PyDateTime) : Decidable (DtBounds dt) := by
  unfold DtBounds
  infer_instance

theorem parseRun_dumpRun (r : RunSummary) (hb : DtBounds r.created) :
    parseRun (dumpRun r) = some r := by
  obtain ⟨rid, ty, cr, st, pa⟩ := r
  obtain ⟨h1, h2, h3, h4, h5, h6, h7⟩ := hb
  have hiso : parseIsoChars ((isoformat cr).data) = some cr :=
    parseIso_isoChars cr h1 h2 h3 h4 h5 h6 h7
  cases ty <;> cases st <;>
    simp [dumpRun, parseRun, jget, typeStr, parseType, statusStr,
      parseStatus, hiso]

/-- C6: saving the registry and loading it back yields the same
ordered list of records, for every list of records whose timestamps
are real datetime values (field bounds); insertion order is preserved
by the array round trip. -/
theorem c6_save_load_roundtrip (lst : List RunSummary)
    (hb : ∀ r ∈ lst, DtBounds r.created) :
    load_runs (save_runs lst) = some lst := by
  induction lst with
  | nil => rfl
  | cons r rest ih =>
    have hr := hb r (List.mem_cons_self r rest)
    have hrest := ih fun x hx => hb x (List.mem_cons_of_mem r hx)
    simp only [save_runs, load_runs, List.map_cons, parseRunList] at *
    rw [parseRun_dumpRun r hr, hrest]

/-- C6 witness: the round trip on a concrete two-record registry. -/
theorem c6_witness :
    (∀ r ∈ [rDone, rPend], DtBounds r.created) ∧
    load_runs (save_runs [rDone, rPend]) = some [rDone, rPend] :=
  ⟨by decide, c6_save_load_roundtrip [rDone, rPend] (by decide)⟩
